import Mathlib

/-!
Shallow embedding of the kahoot-agent resolution pipeline:
the answer scorer (`answer_searcher.py`), the button localizer
(`auto_clicker.py`), the OCR text parsing (`ocr_extractor.py`) and the
orchestrator decision logic (`kahoot_agent.py`), together with theorems
checking the specification's claims about them.

Machine floats of the Python code are modelled by rationals; the weights
involved (2, 0.5, 5) and the counts are exactly representable, and all
claims are order/positivity facts preserved by this modelling.
-/

namespace Kahoot

-- The concrete witnesses below evaluate rational arithmetic inside the
-- kernel; Batteries marks these operations irreducible for the
-- elaborator, which `decide` follows, so they are re-opened here.
attribute [local semireducible] Rat.add Rat.mul Rat.inv Rat.sub

/-! ## Python string primitives

All string operations are defined structurally over the character list
(`String.data`), mirroring the Python semantics on the ASCII range the
pipeline works with. -/

/-- Whitespace characters recognised by Python `str.strip` / `str.split()` /
regex `\s` (ASCII range, which is all the pipeline produces). -/
def pyIsSpace (c : Char) : Bool :=
  c = ' ' ∨ c = '\t' ∨ c = '\n' ∨ c = '\r' ∨ c = '\x0b' ∨ c = '\x0c'

/-- Python `str.strip()` on a character list. -/
def pyStripChars (s : List Char) : List Char :=
  ((s.dropWhile pyIsSpace).reverse.dropWhile pyIsSpace).reverse

/-- Python `str.strip()`. -/
def pyStrip (s : String) : String := ⟨pyStripChars s.data⟩

/-- Python `str.lower()` (ASCII range). -/
def charLower (c : Char) : Char :=
  if 'A' ≤ c ∧ c ≤ 'Z' then Char.ofNat (c.toNat + 32) else c

/-- Python `str.lower()` on a string. -/
def strLower (s : String) : String := ⟨s.data.map charLower⟩

/-- Split a character list at every character satisfying `p`, keeping
empty pieces (the semantics of Python `str.split(sep)` for a one-character
separator, with `p` testing for that separator). -/
def splitPredChars (p : Char → Bool) : List Char → List (List Char)
  | [] => [[]]
  | c :: rest =>
    match splitPredChars p rest with
    | [] => [[]]
    | piece :: pieces =>
      if p c then [] :: piece :: pieces else (c :: piece) :: pieces

/-- Python `raw_text.split('\n')`. -/
def splitLines (s : String) : List String :=
  (splitPredChars (fun c => c = '\n') s.data).map (fun l => (⟨l⟩ : String))

/-- Python `str.split()` with no argument: split on whitespace runs,
dropping empty pieces. -/
def pySplitWS (s : String) : List String :=
  ((splitPredChars pyIsSpace s.data).map (fun l => (⟨l⟩ : String))).filter
    (fun p => p ≠ "")

/-- One step of Python `str.count`: non-overlapping occurrences of the
(non-empty) needle, scanning left to right.  Structural recursion on an
explicit fuel (one unit per character consumed) so the kernel can
evaluate it. -/
def pyCountFuel (needle : List Char) : ℕ → List Char → ℕ
  | 0, _ => 0
  | _ + 1, [] => 0
  | fuel + 1, c :: rest =>
    if needle.isPrefixOf (c :: rest) then
      1 + pyCountFuel needle fuel (List.drop (needle.length - 1) rest)
    else
      pyCountFuel needle fuel rest

/-- Python `haystack.count(needle)` (for strings). -/
def pyCount (hay needle : String) : ℕ :=
  if needle.data = [] then hay.data.length + 1
  else pyCountFuel needle.data hay.data.length hay.data

/-! ## Regex fragment used by the scorer

The four context patterns of `extract_potential_answers` are each either a
literal or of the shape `L1.*L2` with `L1`, `L2` literals (`re.escape` makes
the option text literal).  We embed `re.findall` for that shape:
non-overlapping leftmost matches, `.*` greedy and not crossing a newline. -/

/-- Length consumed by a greedy `.*L2` match at the start of `s`:
the largest `k` such that the first `k` characters contain no newline and
`L2` starts at position `k`; `none` if no such `k` exists. -/
def dotStarLen (l2 s : List Char) : Option ℕ :=
  (((List.range (s.length + 1)).reverse).filterMap (fun k =>
    if (s.take k).all (fun c => c ≠ '\n') ∧ l2.isPrefixOf (s.drop k) then
      some (k + l2.length)
    else none)).head?

/-- Length of a match of `L1.*L2` at the start of `s`, if any. -/
def matchLen (l1 l2 s : List Char) : Option ℕ :=
  if l1.isPrefixOf s then (dotStarLen l2 (s.drop l1.length)).map (l1.length + ·)
  else none

/-- Fuel-driven scan counting non-overlapping matches of `L1.*L2`,
advancing past each match (or by one character on a zero-width match),
as `re.findall` does. -/
def findallFuel (l1 l2 : List Char) : ℕ → List Char → ℕ
  | 0, _ => 0
  | _ + 1, [] => if (matchLen l1 l2 []).isSome then 1 else 0
  | fuel + 1, c :: rest =>
    match matchLen l1 l2 (c :: rest) with
    | none => findallFuel l1 l2 fuel rest
    | some 0 => 1 + findallFuel l1 l2 fuel rest
    | some (n + 1) => 1 + findallFuel l1 l2 fuel (List.drop n rest)

/-- `len(re.findall(L1 + ".*" + L2, text))`. -/
def findallCount (l1 l2 : List Char) (text : List Char) : ℕ :=
  findallFuel l1 l2 (text.length + 1) text

/-! ## AnswerSearcher (`answer_searcher.py`) -/

/-- One search result, as produced by `search_google`:
a dict with keys `title`, `url`, `snippet`. -/
structure SearchResult where
  title : String
  url : String
  snippet : String
deriving DecidableEq

/-- The combined text of `extract_potential_answers`:
`all_text += f" {title} {snippet}"` over the results, then lowercased. -/
def allText (results : List SearchResult) : String :=
  strLower (results.foldl (fun acc r => acc ++ " " ++ r.title ++ " " ++ r.snippet) "")

/-- The raw (pre-normalization) score one loop iteration of
`extract_potential_answers` adds for a non-empty `option`:
direct substring mentions ×2, per-word mentions (words longer than 2
characters) ×0.5, and the four context patterns ×5. -/
def rawScore (text : String) (option : String) : ℚ :=
  let ol := strLower option
  let direct : ℚ := (pyCount text ol : ℚ) * 2
  let wordScore : ℚ :=
    (pySplitWS ol).foldl
      (fun acc w => if w.length > 2 then acc + (pyCount text w : ℚ) * (1 / 2) else acc) 0
  let p1 : ℕ := pyCount text ("answer is " ++ ol)
  let p2 : ℕ := findallCount ("correct answer".data) ol.data text.data
  let p3 : ℕ := findallCount ol.data (" is correct".data) text.data
  let p4 : ℕ := findallCount ("solution".data) ol.data text.data
  direct + wordScore + ((p1 : ℚ) + p2 + p3 + p4) * 5

/-- Keys of a Python dict built by inserting the elements of a list in
order: distinct values in first-occurrence order. -/
def dictKeysAux (seen : List String) : List String → List String
  | [] => []
  | o :: rest =>
    if o ∈ seen then dictKeysAux seen rest
    else o :: dictKeysAux (o :: seen) rest

/-- Key sequence of `{option: 0.0 for option in answer_options}`. -/
def dictKeys (options : List String) : List String := dictKeysAux [] options

/-- `answer_scores[k] += v` on an association-list model of the dict. -/
def addScore (d : List (String × ℚ)) (k : String) (v : ℚ) : List (String × ℚ) :=
  d.map (fun p => if p.1 = k then (p.1, p.2 + v) else p)

/-- The scoring loop of `extract_potential_answers`: iterate over the
option list (duplicates included), skipping empty options, adding each
option's raw score to its dict entry. -/
def scoreLoop (text : String) (options : List String) (d : List (String × ℚ)) :
    List (String × ℚ) :=
  options.foldl (fun acc o => if o = "" then acc else addScore acc o (rawScore text o)) d

/-- The dict `{option: 0.0 for option in answer_options}`. -/
def initScores (options : List String) : List (String × ℚ) :=
  (dictKeys options).map (fun k => (k, (0 : ℚ)))

/-- `max(answer_scores.values()) if answer_scores.values() else 1`. -/
def maxValues : List (String × ℚ) → ℚ
  | [] => 1
  | p :: ps => (ps.map Prod.snd).foldl max p.2

/-- The raw score dict before normalization (the state of `answer_scores`
just before the `# Normalize scores` block; the guard returns the all-zero
dict untouched when there are no results or no options). -/
def rawScores (results : List SearchResult) (options : List String) :
    List (String × ℚ) :=
  if results = [] ∨ options = [] then initScores options
  else scoreLoop (allText results) options (initScores options)

/-- `AnswerSearcher.extract_potential_answers`: build the raw score dict,
then divide every entry by the maximum value when that maximum is
positive. -/
def extract_potential_answers (results : List SearchResult) (options : List String) :
    List (String × ℚ) :=
  let scores := rawScores results options
  if results = [] ∨ options = [] then scores
  else
    let m := maxValues scores
    if m > 0 then scores.map (fun p => (p.1, p.2 / m)) else scores

/-- Python `max(d.items(), key=lambda x: x[1])` on a non-empty dict:
first item attaining the maximal value (ties keep the earlier item). -/
def pyMaxBySnd : List (String × ℚ) → Option (String × ℚ)
  | [] => none
  | p :: ps => some (ps.foldl (fun best q => if q.2 > best.2 then q else best) p)

/-- `AnswerSearcher.find_best_answer`, with the network search abstracted:
`searchOutcome = none` models the `try` block raising (search failure),
`some results` models the combined general + educational search results.
Returns `(best_answer, confidence)`. -/
def find_best_answer (question : String) (options : List String)
    (searchOutcome : Option (List SearchResult)) : String × ℚ :=
  if question = "" ∨ options = [] then ("", 0)
  else
    match searchOutcome with
    | none => (options.headI, 1 / 10)
    | some results =>
      match pyMaxBySnd (extract_potential_answers results options) with
      | some p => p
      | none => (options.headI, 1 / 10)

/-! ## AutoClicker (`auto_clicker.py`) -/

/-- `AutoClicker.find_answer_buttons`.  The image is abstracted to its
shape `(height, width)` (the only data the function reads); `none` models
a `None` image.  Python `//` on non-negative operands is `Nat` division. -/
def find_answer_buttons (image : Option (ℕ × ℕ)) (answer_options : List String) :
    List (ℕ × ℕ) :=
  match image with
  | none => []
  | some (height, width) =>
    if answer_options = [] then []
    else
      let quadrants : List (ℕ × ℕ) :=
        [(width / 4, height / 4), (3 * width / 4, height / 4),
         (width / 4, 3 * height / 4), (3 * width / 4, 3 * height / 4)]
      quadrants.take (min answer_options.length 4)

/-! ## OCRExtractor (`ocr_extractor.py`) -/

/-- `re.sub(r'\s+', ' ', s)` on a string with no leading whitespace
(the argument is always `.strip()`-ed first): collapse each whitespace run
to a single space.  The boolean records whether the previous character was
part of a run already replaced. -/
def collapseWSAux : Bool → List Char → List Char
  | _, [] => []
  | prev, c :: rest =>
    if pyIsSpace c then
      if prev then collapseWSAux true rest else ' ' :: collapseWSAux true rest
    else c :: collapseWSAux false rest

/-- OCR artifact characters removed by `clean_question_text`
(`re.sub(r'[|@#$%^&*]', '', ...)`). -/
def isArtifact (c : Char) : Bool :=
  c = '|' ∨ c = '@' ∨ c = '#' ∨ c = '$' ∨ c = '%' ∨ c = '^' ∨ c = '&' ∨ c = '*'

/-- `cleaned.endswith(('?', '.', '!'))`: the last character is terminal
punctuation. -/
def endsWithPunct (s : String) : Bool :=
  match s.data.getLast? with
  | some c => c = '?' ∨ c = '.' ∨ c = '!'
  | none => false

/-- `OCRExtractor.clean_question_text`. -/
def clean_question_text (raw : String) : String :=
  if raw = "" then ""
  else
    let c1 : List Char := collapseWSAux false (pyStripChars raw.data)
    let c2 : String := ⟨c1.filter (fun c => ¬ isArtifact c)⟩
    if c2 ≠ "" ∧ ¬ endsWithPunct c2 then c2 ++ "?" else c2

/-- `re.sub(r'^[A-D]\)?\s*', '', s)`: an uppercase letter A–D, an optional
closing parenthesis, then any whitespace, all removed if present at the
start. -/
def stripEnumAlpha (s : List Char) : List Char :=
  match s with
  | [] => []
  | c :: rest =>
    if 'A' ≤ c ∧ c ≤ 'D' then
      (match rest with
       | ')' :: r => r
       | _ => rest).dropWhile pyIsSpace
    else c :: rest

/-- `re.sub(r'^[1-4]\.?\s*', '', s)`. -/
def stripEnumNum (s : List Char) : List Char :=
  match s with
  | [] => []
  | c :: rest =>
    if '1' ≤ c ∧ c ≤ '4' then
      (match rest with
       | '.' :: r => r
       | _ => rest).dropWhile pyIsSpace
    else c :: rest

/-- The per-line cleaning step of `parse_answer_options`: strip, keep only
lines longer than 2 characters, remove leading enumerators, keep the
result if non-empty. -/
def cleanLine (line : String) : Option String :=
  let cleaned := pyStrip line
  if cleaned.length > 2 then
    let c2 : String := ⟨stripEnumNum (stripEnumAlpha cleaned.data)⟩
    if c2 ≠ "" then some c2 else none
  else none

/-- The fallback of `parse_answer_options`:
`[' '.join(words[i:i+3]) for i in range(0, min(len(words), 12), 3)]`. -/
def chunk3 (words : List String) : List String :=
  (List.range ((min words.length 12 + 2) / 3)).map
    (fun j => " ".intercalate ((words.drop (3 * j)).take 3))

/-- `OCRExtractor.parse_answer_options`, written as the source's
accumulating loop over the `\n`-split lines followed by the
fewer-than-two-fragments fallback and the final truncation to 4. -/
def parse_answer_options (raw : String) : List String :=
  if raw = "" then []
  else
    let answers := (splitLines raw).foldl
      (fun acc line =>
        match cleanLine line with
        | some c => acc ++ [c]
        | none => acc) []
    let answers2 :=
      if answers.length < 2 then
        let words := pySplitWS raw
        if words.length ≥ 4 then chunk3 words else answers
      else answers
    answers2.take 4

/-- Declarative form of the line-splitting stage of
`parse_answer_options`: the usable fragments, one per line that survives
cleaning. -/
def lineFragments (raw : String) : List String :=
  (splitLines raw).filterMap cleanLine

/-- `OCRExtractor.extract_question`, with the OCR backend abstracted as a
fallible recognizer (`Except.error` models a raised exception).  The body
has no exception handler, so a recognizer error is returned as an error
to the caller. -/
def extract_question {Img Err : Type} (recognize : Img → Except Err String)
    (question_image : Option Img) : Except Err (Option String) :=
  match question_image with
  | none => Except.ok none
  | some img =>
    match recognize img with
    | Except.error e => Except.error e
    | Except.ok text =>
      let q := clean_question_text text
      Except.ok (if q = "" then none else some q)

/-- `OCRExtractor.extract_answers`, recognizer abstracted as in
`extract_question`. -/
def extract_answers {Img Err : Type} (recognize : Img → Except Err String)
    (answers_image : Option Img) : Except Err (List String) :=
  match answers_image with
  | none => Except.ok []
  | some img =>
    match recognize img with
    | Except.error e => Except.error e
    | Except.ok text => Except.ok (parse_answer_options text)

/-! ## KahootAgent orchestrator (`kahoot_agent.py`) -/

/-- The orchestrator's cross-cycle state (`KahootAgent` fields read or
written by `process_question`). -/
structure AgentState where
  auto_click : Bool
  min_confidence : ℚ
  last_question : String
  question_count : ℕ
deriving DecidableEq

/-- Observable outcome of one `process_question` cycle: the returned
boolean, the updated state, and whether `search_for_answer`
(evidence gathering + scoring) and `click_best_answer` (the action stage)
were invoked during the cycle. -/
structure CycleResult where
  success : Bool
  state : AgentState
  searcherInvoked : Bool
  clickAttempted : Bool
deriving DecidableEq

/-- `KahootAgent.process_question`, with the cycle's capture/OCR output
passed in as `(question, options, positions)` (the tuple returned by
`capture_and_analyze`; `question = none` models a `None` question) and the
network search outcome passed to `find_best_answer` as in its embedding. -/
def process_question (st : AgentState) :
    Option String → List String → List (ℕ × ℕ) → Option (List SearchResult) → CycleResult
  | none, _, _, _ => ⟨false, st, false, false⟩
  | some q, options, positions, searchOutcome =>
    if q = "" ∨ options = [] then ⟨false, st, false, false⟩
    else if q = st.last_question then ⟨true, st, false, false⟩
    else
      let st' : AgentState :=
        { st with last_question := q, question_count := st.question_count + 1 }
      let best := find_best_answer q options searchOutcome
      if best.1 = "" then ⟨false, st', true, false⟩
      else if st.auto_click ∧ best.2 ≥ st.min_confidence ∧ positions ≠ [] then
        ⟨true, st', true, true⟩
      else ⟨true, st', true, false⟩

/-! ## Derived values of the scorer, used to state the claims -/

/-- Value of option `k` in the raw (pre-normalization) score dict. -/
def rawVal (results : List SearchResult) (options : List String) (k : String) : ℚ :=
  if results = [] ∨ options = [] then 0
  else if k = "" then 0
  else (options.count k : ℚ) * rawScore (allText results) k

/-- Value of option `k` in the returned (normalized) score dict. -/
def normVal (results : List SearchResult) (options : List String) (k : String) : ℚ :=
  if results = [] ∨ options = [] then 0
  else if maxValues (rawScores results options) > 0 then
    rawVal results options k / maxValues (rawScores results options)
  else rawVal results options k

/-- Score of option `k` in an association-list score map (0 if absent),
taking the first matching entry as a Python dict lookup would. -/
def getScore (d : List (String × ℚ)) (k : String) : ℚ :=
  match d.find? (fun p => p.1 == k) with
  | some p => p.2
  | none => 0

/-! ## Lemmas about `dictKeys` -/

theorem mem_dictKeysAux {x : String} :
    ∀ (l seen : List String), x ∈ dictKeysAux seen l ↔ x ∈ l ∧ x ∉ seen := by
  intro l
  induction l with
  | nil => intro seen; simp [dictKeysAux]
  | cons o rest ih =>
    intro seen
    by_cases ho : o ∈ seen
    · simp only [dictKeysAux, if_pos ho, ih, List.mem_cons]
      constructor
      · rintro ⟨hx, hns⟩; exact ⟨Or.inr hx, hns⟩
      · rintro ⟨hx | hx, hns⟩
        · exact absurd (hx ▸ ho) hns
        · exact ⟨hx, hns⟩
    · simp only [dictKeysAux, if_neg ho, List.mem_cons, ih]
      constructor
      · rintro (rfl | ⟨hx, hns⟩)
        · exact ⟨Or.inl rfl, ho⟩
        · exact ⟨Or.inr hx, fun h => hns (Or.inr h)⟩
      · rintro ⟨rfl | hx, hns⟩
        · exact Or.inl rfl
        · by_cases hxo : x = o
          · exact Or.inl hxo
          · exact Or.inr ⟨hx, by simp [hxo, hns]⟩

theorem mem_dictKeys {x : String} {l : List String} : x ∈ dictKeys l ↔ x ∈ l := by
  simp [dictKeys, mem_dictKeysAux]

theorem nodup_dictKeysAux : ∀ (l seen : List String), (dictKeysAux seen l).Nodup := by
  intro l
  induction l with
  | nil => intro seen; simp [dictKeysAux]
  | cons o rest ih =>
    intro seen
    by_cases ho : o ∈ seen
    · simpa [dictKeysAux, if_pos ho] using ih seen
    · simp only [dictKeysAux, if_neg ho]
      refine List.Nodup.cons ?_ (ih (o :: seen))
      intro hmem
      exact ((mem_dictKeysAux rest (o :: seen)).mp hmem).2 (List.mem_cons_self o seen)

theorem nodup_dictKeys (l : List String) : (dictKeys l).Nodup := nodup_dictKeysAux l []

theorem dictKeys_ne_nil {l : List String} (h : l ≠ []) : dictKeys l ≠ [] := by
  match l, h with
  | o :: rest, _ =>
    intro hk
    have : o ∈ dictKeys (o :: rest) := mem_dictKeys.mpr (List.mem_cons_self o rest)
    rw [hk] at this
    exact (List.not_mem_nil o) this

/-- In the key list of a dict built from `l1 ++ a :: l2` with `a` not yet
seen and not in `l1`, every element of `l1` that is itself a key appears
before `a`. -/
theorem dictKeysAux_order {a o : String} :
    ∀ (l1 : List String) (seen l2 : List String), a ∉ seen → a ∉ l1 → o ∈ l1 →
      ∃ k1 k2, dictKeysAux seen (l1 ++ a :: l2) = k1 ++ a :: k2 ∧ (o ∈ k1 ∨ o ∈ seen) := by
  intro l1
  induction l1 with
  | nil => intro seen l2 _ _ ho; exact absurd ho (List.not_mem_nil o)
  | cons x l1 ih =>
    intro seen l2 hseen hal1 ho
    have hax : a ≠ x := fun h => hal1 (h ▸ List.mem_cons_self x l1)
    by_cases hx : x ∈ seen
    · rw [List.cons_append, dictKeysAux, if_pos hx]
      rcases List.mem_cons.mp ho with rfl | ho'
      · -- o = x is already seen; any split around a will do
        have hamem : a ∈ dictKeysAux seen (l1 ++ a :: l2) :=
          (mem_dictKeysAux _ _).mpr ⟨List.mem_append_right l1 (List.mem_cons_self a l2), hseen⟩
        obtain ⟨k1, k2, hsplit⟩ := List.append_of_mem hamem
        exact ⟨k1, k2, hsplit, Or.inr hx⟩
      · obtain ⟨k1, k2, hsplit, hk⟩ :=
          ih seen l2 hseen (fun h => hal1 (List.mem_cons_of_mem x h)) ho'
        exact ⟨k1, k2, hsplit, hk⟩
    · rw [List.cons_append, dictKeysAux, if_neg hx]
      have hseen' : a ∉ x :: seen := by
        intro h
        rcases List.mem_cons.mp h with h' | h'
        · exact hax h'
        · exact hseen h'
      rcases List.mem_cons.mp ho with rfl | ho'
      · -- o = x becomes the first key; a appears somewhere in the tail
        have hamem : a ∈ dictKeysAux (o :: seen) (l1 ++ a :: l2) :=
          (mem_dictKeysAux _ _).mpr ⟨List.mem_append_right l1 (List.mem_cons_self a l2), hseen'⟩
        obtain ⟨k1, k2, hsplit⟩ := List.append_of_mem hamem
        refine ⟨o :: k1, k2, ?_, Or.inl (List.mem_cons_self o k1)⟩
        rw [hsplit]; rfl
      · obtain ⟨k1, k2, hsplit, hk⟩ :=
          ih (x :: seen) l2 hseen' (fun h => hal1 (List.mem_cons_of_mem x h)) ho'
        refine ⟨x :: k1, k2, ?_, ?_⟩
        · rw [hsplit]; rfl
        · rcases hk with h | h
          · exact Or.inl (List.mem_cons_of_mem x h)
          · rcases List.mem_cons.mp h with h' | h'
            · exact Or.inl (h' ▸ List.mem_cons_self x k1)
            · exact Or.inr h'

/-- Splitting a list at the first occurrence of a member. -/
theorem first_occ_split {a : String} :
    ∀ {l : List String}, a ∈ l → ∃ l1 l2, l = l1 ++ a :: l2 ∧ a ∉ l1 := by
  intro l
  induction l with
  | nil => intro h; exact absurd h (List.not_mem_nil a)
  | cons x rest ih =>
    intro h
    by_cases hxa : x = a
    · exact ⟨[], rest, by rw [hxa]; rfl, List.not_mem_nil a⟩
    · rcases List.mem_cons.mp h with h' | h'
      · exact absurd h'.symm hxa
      · obtain ⟨l1, l2, hsplit, hnot⟩ := ih h'
        refine ⟨x :: l1, l2, by rw [hsplit]; rfl, ?_⟩
        intro hmem
        rcases List.mem_cons.mp hmem with h'' | h''
        · exact hxa h''.symm
        · exact hnot h''

/-- Two splits of the same list at an element absent from both left parts
agree. -/
theorem split_unique {a : String} :
    ∀ (k1 j1 : List String) {k2 j2 : List String},
      k1 ++ a :: k2 = j1 ++ a :: j2 → a ∉ k1 → a ∉ j1 → k1 = j1 ∧ k2 = j2 := by
  intro k1
  induction k1 with
  | nil =>
    intro j1 k2 j2 heq _ haj
    cases j1 with
    | nil => simpa using heq
    | cons b j1 =>
      simp only [List.nil_append, List.cons_append, List.cons.injEq] at heq
      exact absurd (heq.1 ▸ List.mem_cons_self b j1) haj
  | cons c k1 ih =>
    intro j1 k2 j2 heq hak haj
    cases j1 with
    | nil =>
      simp only [List.nil_append, List.cons_append, List.cons.injEq] at heq
      exact absurd (heq.1 ▸ List.mem_cons_self c k1) hak
    | cons b j1 =>
      simp only [List.cons_append, List.cons.injEq] at heq
      obtain ⟨h1, h2⟩ := ih j1 heq.2
        (fun h => hak (List.mem_cons_of_mem c h))
        (fun h => haj (List.mem_cons_of_mem b h))
      exact ⟨by rw [heq.1, h1], h2⟩

/-! ## Lemmas about association-list score maps -/

theorem getScore_map {v : String → ℚ} :
    ∀ (keys : List String) (k : String), k ∈ keys →
      getScore (keys.map (fun x => (x, v x))) k = v k := by
  intro keys
  induction keys with
  | nil => intro k h; exact absurd h (List.not_mem_nil k)
  | cons x rest ih =>
    intro k hk
    by_cases hxk : x = k
    · subst hxk
      simp [getScore, List.find?]
    · have hk' : k ∈ rest := by
        rcases List.mem_cons.mp hk with h | h
        · exact absurd h.symm hxk
        · exact h
      have hbeq : (x == k) = false := beq_false_of_ne hxk
      simpa [getScore, List.find?, hbeq] using ih k hk'

theorem addScore_map {g : String → ℚ} {o : String} {v : ℚ} (keys : List String) :
    addScore (keys.map (fun k => (k, g k))) o v =
      keys.map (fun k => (k, if k = o then g k + v else g k)) := by
  unfold addScore
  rw [List.map_map]
  refine List.map_congr_left ?_
  intro k _
  by_cases hk : k = o <;> simp [hk]

/-- Cast form of `List.count_cons` used in the scoring-loop lemma. -/
theorem count_cons_q (k o : String) (l : List String) :
    (((o :: l).count k : ℕ) : ℚ) =
      ((l.count k : ℕ) : ℚ) + if k = o then 1 else 0 := by
  by_cases h : k = o <;> simp [List.count_cons, h]

/-- The scoring loop adds, to each key's entry, the key's multiplicity in
the iterated list times its raw score (empty options are skipped). -/
theorem scoreLoop_map (text : String) :
    ∀ (l keys : List String) (g : String → ℚ),
      scoreLoop text l (keys.map (fun k => (k, g k))) =
        keys.map (fun k =>
          (k, g k + (if k = "" then 0 else (l.count k : ℚ) * rawScore text k))) := by
  intro l
  induction l with
  | nil =>
    intro keys g
    unfold scoreLoop
    simp only [List.foldl_nil]
    refine (List.map_congr_left ?_).symm
    intro k _
    simp
  | cons o l ih =>
    intro keys g
    unfold scoreLoop at *
    by_cases ho : o = ""
    · rw [List.foldl_cons, if_pos ho, ih keys g]
      refine List.map_congr_left ?_
      intro k _
      by_cases hk : k = ""
      · simp [hk]
      · have hko : ¬ k = o := fun h => hk (h.trans ho)
        simp [hk, List.count_cons, hko]
    · rw [List.foldl_cons, if_neg ho, addScore_map keys,
        ih keys (fun k => if k = o then g k + rawScore text o else g k)]
      refine List.map_congr_left ?_
      intro k _
      refine congrArg (Prod.mk k) ?_
      by_cases hk : k = o
      · have hk0 : ¬ k = "" := fun h => ho (hk ▸ h)
        rw [if_pos hk, if_neg hk0, if_neg hk0, count_cons_q, if_pos hk, hk]
        ring
      · rw [if_neg hk]
        by_cases hk0 : k = ""
        · rw [if_pos hk0, if_pos hk0]
        · rw [if_neg hk0, if_neg hk0, count_cons_q, if_neg hk]
          ring

/-- The raw score dict is the key list paired with `rawVal`. -/
theorem rawScores_eq_map (results : List SearchResult) (options : List String) :
    rawScores results options =
      (dictKeys options).map (fun k => (k, rawVal results options k)) := by
  by_cases hdeg : results = [] ∨ options = []
  · unfold rawScores rawVal initScores
    rw [if_pos hdeg]
    refine List.map_congr_left ?_
    intro k _
    rw [if_pos hdeg]
  · unfold rawScores rawVal initScores
    rw [if_neg hdeg]
    rw [scoreLoop_map (allText results) options (dictKeys options) (fun _ => 0)]
    refine List.map_congr_left ?_
    intro k _
    rw [if_neg hdeg]
    by_cases hk : k = "" <;> simp [hk]

/-- The returned dict is the key list paired with `normVal`. -/
theorem extract_eq_map (results : List SearchResult) (options : List String) :
    extract_potential_answers results options =
      (dictKeys options).map (fun k => (k, normVal results options k)) := by
  by_cases hdeg : results = [] ∨ options = []
  · unfold extract_potential_answers normVal
    simp only [if_pos hdeg]
    rw [rawScores_eq_map]
    refine List.map_congr_left ?_
    intro k _
    unfold rawVal
    rw [if_pos hdeg]
  · unfold extract_potential_answers normVal
    simp only [if_neg hdeg]
    by_cases hm : maxValues (rawScores results options) > 0
    · simp only [if_pos hm]
      rw [rawScores_eq_map, List.map_map]
      refine List.map_congr_left ?_
      intro k _
      simp
    · simp only [if_neg hm]
      rw [rawScores_eq_map]

/-! ## Order lemmas about `maxValues` -/

theorem le_foldl_max_init : ∀ (l : List ℚ) (b : ℚ), b ≤ l.foldl max b := by
  intro l
  induction l with
  | nil => intro b; simp
  | cons x l ih =>
    intro b
    exact le_trans (le_max_left b x) (ih (max b x))

theorem le_foldl_max_mem : ∀ (l : List ℚ) (b x : ℚ), x ∈ l → x ≤ l.foldl max b := by
  intro l
  induction l with
  | nil => intro b x h; exact absurd h (List.not_mem_nil x)
  | cons y l ih =>
    intro b x h
    rcases List.mem_cons.mp h with rfl | h'
    · exact le_trans (le_max_right b x) (le_foldl_max_init l (max b x))
    · exact ih (max b y) x h'

theorem foldl_max_choice : ∀ (l : List ℚ) (b : ℚ), l.foldl max b = b ∨ l.foldl max b ∈ l := by
  intro l
  induction l with
  | nil => intro b; exact Or.inl rfl
  | cons x l ih =>
    intro b
    rw [List.foldl_cons]
    rcases ih (max b x) with h | h
    · rcases max_choice b x with h' | h'
      · exact Or.inl (h.trans h')
      · exact Or.inr (by rw [h, h']; exact List.mem_cons_self x l)
    · exact Or.inr (List.mem_cons_of_mem x h)

/-- Every value in the dict is at most `maxValues`. -/
theorem snd_le_maxValues {d : List (String × ℚ)} {p : String × ℚ} (hp : p ∈ d) :
    p.2 ≤ maxValues d := by
  match d, hp with
  | q :: ps, hp =>
    unfold maxValues
    rcases List.mem_cons.mp hp with rfl | h'
    · exact le_foldl_max_init _ _
    · exact le_foldl_max_mem _ _ _ (List.mem_map_of_mem Prod.snd h')

/-- For a non-empty dict, `maxValues` is one of the values. -/
theorem maxValues_mem {d : List (String × ℚ)} (hd : d ≠ []) :
    maxValues d ∈ d.map Prod.snd := by
  match d, hd with
  | q :: ps, _ =>
    simp only [maxValues]
    rcases foldl_max_choice (ps.map Prod.snd) q.2 with h | h
    · rw [h]; exact List.mem_cons_self _ _
    · exact List.mem_cons_of_mem _ h

/-- Dividing every value of a non-empty dict by a positive constant
divides the maximum. -/
theorem maxValues_map_div {d : List (String × ℚ)} {m : ℚ} (hm : 0 < m) (hd : d ≠ []) :
    maxValues (d.map (fun p => (p.1, p.2 / m))) = maxValues d / m := by
  have key : ∀ (l : List ℚ) (b : ℚ),
      (l.map (fun x => x / m)).foldl max (b / m) = l.foldl max b / m := by
    intro l
    induction l with
    | nil => intro b; simp
    | cons x l ih =>
      intro b
      rw [List.map_cons, List.foldl_cons, List.foldl_cons,
        max_div_div_right (le_of_lt hm) b x, ih (max b x)]
  match d, hd with
  | q :: ps, _ =>
    simp only [List.map_cons, maxValues]
    rw [show ((ps.map (fun p => (p.1, p.2 / m))).map Prod.snd) =
        (ps.map Prod.snd).map (fun x => x / m) by rw [List.map_map, List.map_map]; rfl]
    exact key (ps.map Prod.snd) q.2

/-! ## Nonnegativity of the raw scores -/

theorem wordFold_nonneg (text : String) :
    ∀ (ws : List String) (acc : ℚ), 0 ≤ acc →
      0 ≤ ws.foldl
        (fun acc w => if w.length > 2 then acc + (pyCount text w : ℚ) * (1 / 2) else acc)
        acc := by
  intro ws
  induction ws with
  | nil => intro acc h; simpa using h
  | cons w ws ih =>
    intro acc h
    rw [List.foldl_cons]
    refine ih _ ?_
    by_cases hw : w.length > 2
    · rw [if_pos hw]
      have : (0 : ℚ) ≤ (pyCount text w : ℚ) * (1 / 2) := by positivity
      linarith
    · rwa [if_neg hw]

theorem rawScore_nonneg (text option : String) : 0 ≤ rawScore text option := by
  unfold rawScore
  have h1 : (0 : ℚ) ≤ (pyCount text (strLower option) : ℚ) * 2 := by positivity
  have h2 := wordFold_nonneg text (pySplitWS (strLower option)) 0 le_rfl
  have h3 : (0 : ℚ) ≤
      ((pyCount text ("answer is " ++ strLower option) : ℚ) +
        (findallCount ("correct answer".data) (strLower option).data text.data : ℚ) +
        (findallCount (strLower option).data (" is correct".data) text.data : ℚ) +
        (findallCount ("solution".data) (strLower option).data text.data : ℚ)) * 5 := by
    positivity
  linarith

theorem rawVal_nonneg (results : List SearchResult) (options : List String) (k : String) :
    0 ≤ rawVal results options k := by
  unfold rawVal
  by_cases hdeg : results = [] ∨ options = []
  · rw [if_pos hdeg]
  · rw [if_neg hdeg]
    by_cases hk : k = ""
    · rw [if_pos hk]
    · rw [if_neg hk]
      have := rawScore_nonneg (allText results) k
      positivity

/-- The maximum raw value bounds each raw value, phrased through `rawVal`. -/
theorem rawVal_le_maxValues (results : List SearchResult) (options : List String)
    {k : String} (hk : k ∈ dictKeys options) :
    rawVal results options k ≤ maxValues (rawScores results options) := by
  have hmem : (k, rawVal results options k) ∈ rawScores results options := by
    rw [rawScores_eq_map]
    exact List.mem_map_of_mem _ hk
  exact snd_le_maxValues hmem

/-- Every normalized value lies in `[0, 1]`. -/
theorem normVal_bounds (results : List SearchResult) (options : List String)
    {k : String} (hk : k ∈ dictKeys options) :
    0 ≤ normVal results options k ∧ normVal results options k ≤ 1 := by
  unfold normVal
  by_cases hdeg : results = [] ∨ options = []
  · rw [if_pos hdeg]; exact ⟨le_rfl, by norm_num⟩
  · rw [if_neg hdeg]
    have h0 := rawVal_nonneg results options k
    have hle := rawVal_le_maxValues results options hk
    by_cases hm : maxValues (rawScores results options) > 0
    · rw [if_pos hm]
      exact ⟨div_nonneg h0 (le_of_lt hm), (div_le_one hm).mpr hle⟩
    · rw [if_neg hm]
      push_neg at hm
      have : rawVal results options k = 0 := le_antisymm (hle.trans hm) h0
      rw [this]
      exact ⟨le_rfl, by norm_num⟩

/-! ## The Python `max(d.items(), key=...)` fold -/

/-- The fold underlying `pyMaxBySnd` returns the first element of
`b :: xs` attaining the maximal second component: everything before it is
strictly smaller, everything after it is no larger. -/
theorem maxFold_split :
    ∀ (xs : List (String × ℚ)) (b : String × ℚ),
      ∃ l1 l2,
        b :: xs =
          l1 ++ (xs.foldl (fun best q => if q.2 > best.2 then q else best) b) :: l2 ∧
        (∀ x ∈ l1, x.2 < (xs.foldl (fun best q => if q.2 > best.2 then q else best) b).2) ∧
        (∀ x ∈ l2, x.2 ≤ (xs.foldl (fun best q => if q.2 > best.2 then q else best) b).2) := by
  intro xs
  induction xs with
  | nil =>
    intro b
    exact ⟨[], [], rfl, by simp, by simp⟩
  | cons x xs ih =>
    intro b
    rw [List.foldl_cons]
    by_cases h : x.2 > b.2
    · rw [if_pos h]
      obtain ⟨l1, l2, hsplit, hlt, hle⟩ := ih x
      refine ⟨b :: l1, l2, by rw [List.cons_append, ← hsplit], ?_, hle⟩
      intro y hy
      have hbr : b.2 < (xs.foldl (fun best q => if q.2 > best.2 then q else best) x).2 := by
        cases l1 with
        | nil =>
          have : x = xs.foldl (fun best q => if q.2 > best.2 then q else best) x := by
            simpa using congrArg (fun l => l.headI) hsplit
          calc b.2 < x.2 := h
            _ = _ := congrArg Prod.snd this
        | cons c l1' =>
          have hxc : x = c := by
            simpa using congrArg (fun l => l.headI) hsplit
          calc b.2 < x.2 := h
            _ < _ := hxc ▸ hlt c (List.mem_cons_self c l1')
      rcases List.mem_cons.mp hy with rfl | hy'
      · exact hbr
      · exact hlt y hy'
    · rw [if_neg h]
      push_neg at h
      obtain ⟨l1, l2, hsplit, hlt, hle⟩ := ih b
      cases l1 with
      | nil =>
        have hrb : xs.foldl (fun best q => if q.2 > best.2 then q else best) b = b := by
          simpa using (congrArg (fun l => l.headI) hsplit).symm
        have htail : xs = l2 := by
          simpa using congrArg (fun l => l.tail) hsplit
        refine ⟨[], x :: l2, ?_, by simp, ?_⟩
        · rw [List.nil_append, hrb, htail]
        · intro y hy
          rcases List.mem_cons.mp hy with rfl | hy'
          · rw [hrb]; exact h
          · exact hle y hy'
      | cons c l1' =>
        have hcb : c = b := by
          simpa using (congrArg (fun l => l.headI) hsplit).symm
        have htail : xs =
            l1' ++ (xs.foldl (fun best q => if q.2 > best.2 then q else best) b) :: l2 := by
          simpa using congrArg (fun l => l.tail) hsplit
        refine ⟨b :: x :: l1', l2, by rw [List.cons_append, List.cons_append, ← htail], ?_, hle⟩
        intro y hy
        have hblt : b.2 < (xs.foldl (fun best q => if q.2 > best.2 then q else best) b).2 :=
          hcb ▸ hlt c (List.mem_cons_self c l1')
        rcases List.mem_cons.mp hy with rfl | hy'
        · exact hblt
        · rcases List.mem_cons.mp hy' with rfl | hy''
          · exact lt_of_le_of_lt h hblt
          · exact hlt y (List.mem_cons_of_mem c hy'')

/-- Transfer a `l1 ++ m :: l2` split of a mapped list back to the
original list. -/
theorem map_split_transfer {α β : Type} (f : α → β) :
    ∀ (l : List α) (s1 : List β) (m : β) (s2 : List β), l.map f = s1 ++ m :: s2 →
      ∃ k1 w k2, l = k1 ++ w :: k2 ∧ k1.map f = s1 ∧ f w = m ∧ k2.map f = s2 := by
  intro l
  induction l with
  | nil =>
    intro s1 m s2 h
    rw [List.map_nil] at h
    exact absurd h.symm (List.append_ne_nil_of_right_ne_nil s1 (List.cons_ne_nil m s2))
  | cons a l ih =>
    intro s1 m s2 h
    rw [List.map_cons] at h
    cases s1 with
    | nil =>
      rw [List.nil_append] at h
      injection h with h1 h2
      exact ⟨[], a, l, rfl, rfl, h1, h2⟩
    | cons b s1' =>
      rw [List.cons_append] at h
      injection h with h1 h2
      obtain ⟨k1, w, k2, hl, hk1, hw, hk2⟩ := ih s1' m s2 h2
      exact ⟨a :: k1, w, k2, by rw [hl, List.cons_append], by rw [List.map_cons, hk1, h1], hw, hk2⟩

/-! ## Lemmas about `pyMaxBySnd` and `find_best_answer` -/

theorem headI_mem_of_ne_nil {l : List String} (h : l ≠ []) : l.headI ∈ l := by
  match l, h with
  | x :: rest, _ => exact List.mem_cons_self x rest

/-- `pyMaxBySnd` of a non-empty dict is the first entry with maximal
value: strictly greater than everything before it, at least everything
after it. -/
theorem pyMaxBySnd_split {d : List (String × ℚ)} (hd : d ≠ []) :
    ∃ r l1 l2, pyMaxBySnd d = some r ∧ d = l1 ++ r :: l2 ∧
      (∀ x ∈ l1, x.2 < r.2) ∧ (∀ x ∈ l2, x.2 ≤ r.2) := by
  match d, hd with
  | p :: ps, _ =>
    obtain ⟨l1, l2, hsplit, hlt, hle⟩ := maxFold_split ps p
    exact ⟨_, l1, l2, rfl, hsplit, hlt, hle⟩

theorem pyMaxBySnd_mem {d : List (String × ℚ)} {r : String × ℚ}
    (h : pyMaxBySnd d = some r) : r ∈ d := by
  match d, h with
  | p :: ps, h =>
    obtain ⟨r', l1, l2, hr', hsplit, _, _⟩ := pyMaxBySnd_split (List.cons_ne_nil p ps)
    rw [h] at hr'
    injection hr' with hr'
    rw [hsplit, ← hr']
    exact List.mem_append_right l1 (List.mem_cons_self _ _)

theorem extract_ne_nil {results : List SearchResult} {options : List String}
    (ho : options ≠ []) : extract_potential_answers results options ≠ [] := by
  rw [extract_eq_map]
  simpa using dictKeys_ne_nil ho

/-- The answer returned by `find_best_answer` is one of the options. -/
theorem fba_mem (q : String) (options : List String)
    (so : Option (List SearchResult)) (hq : q ≠ "") (ho : options ≠ []) :
    (find_best_answer q options so).1 ∈ options := by
  unfold find_best_answer
  rw [if_neg (by simp [hq, ho])]
  match so with
  | none =>
    simp only
    exact headI_mem_of_ne_nil ho
  | some results =>
    simp only
    obtain ⟨r, l1, l2, hr, _, _, _⟩ := pyMaxBySnd_split (@extract_ne_nil results options ho)
    rw [hr]
    have hmem : r ∈ extract_potential_answers results options := pyMaxBySnd_mem hr
    rw [extract_eq_map] at hmem
    obtain ⟨k, hk, hkr⟩ := List.mem_map.mp hmem
    have : r.1 = k := by rw [← hkr]
    rw [this]
    exact mem_dictKeys.mp hk

/-- The confidence returned by `find_best_answer` lies in `[0, 1]`. -/
theorem fba_bounds (q : String) (options : List String)
    (so : Option (List SearchResult)) (hq : q ≠ "") (ho : options ≠ []) :
    0 ≤ (find_best_answer q options so).2 ∧ (find_best_answer q options so).2 ≤ 1 := by
  unfold find_best_answer
  rw [if_neg (by simp [hq, ho])]
  match so with
  | none => exact ⟨by norm_num, by norm_num⟩
  | some results =>
    simp only
    obtain ⟨r, l1, l2, hr, _, _, _⟩ := pyMaxBySnd_split (@extract_ne_nil results options ho)
    rw [hr]
    have hmem : r ∈ extract_potential_answers results options := pyMaxBySnd_mem hr
    rw [extract_eq_map] at hmem
    obtain ⟨k, hk, hkr⟩ := List.mem_map.mp hmem
    have h2 : r.2 = normVal results options k := by rw [← hkr]
    rw [h2]
    exact normVal_bounds results options hk

/-- Under the pipeline invariant that every option text is non-empty, the
returned best answer is non-empty. -/
theorem fba_ne_empty (q : String) (options : List String)
    (so : Option (List SearchResult)) (hq : q ≠ "") (ho : options ≠ [])
    (hopts : ∀ o ∈ options, o ≠ "") :
    (find_best_answer q options so).1 ≠ "" :=
  hopts _ (fba_mem q options so hq ho)

/-! ## Claim C2 -/

/-- C2: for every image of height `h` and width `w` and non-empty option
list, `find_answer_buttons` returns the four quadrant centers
`(w/4, h/4), (3w/4, h/4), (w/4, 3h/4), (3w/4, 3h/4)` (Python `//`
division) in row-major order, truncated to `min(#options, 4)` entries. -/
theorem find_answer_buttons_quadrant_centers (h w : ℕ) (options : List String)
    (ho : options ≠ []) :
    find_answer_buttons (some (h, w)) options =
      [(w / 4, h / 4), (3 * w / 4, h / 4), (w / 4, 3 * h / 4),
        (3 * w / 4, 3 * h / 4)].take (min options.length 4) := by
  simp only [find_answer_buttons, if_neg ho]

/-- Witness for C2: an 800×600 options area with 4 options yields
`[(200,150), (600,150), (200,450), (600,450)]`. -/
theorem find_answer_buttons_quadrant_centers_witness :
    find_answer_buttons (some (600, 800)) ["red", "blue", "yellow", "green"] =
      [(200, 150), (600, 150), (200, 450), (600, 450)] := by
  rw [find_answer_buttons_quadrant_centers 600 800 ["red", "blue", "yellow", "green"]
    (by decide)]
  decide

/-! ## Claim C4 -/

/-- C4 counterexample: a cycle whose recognized question equals
`last_question` but whose option list is empty returns failure, not
success — the guard `if not question or not answer_options: return False`
runs before the dedup check.  The claim "if the question text recognized
in a cycle equals last_question, then process_question returns success"
is therefore false at this input. -/
theorem process_question_dedup_cex :
    (process_question ⟨false, 3 / 10, "Paris?", 1⟩ (some "Paris?") [] [] none).success
      = false := by
  decide

/-- C4 (amended): if a cycle obtains a non-empty question and a non-empty
option list and the question equals `last_question`, `process_question`
returns success without invoking the searcher (evidence gathering and
scoring) or the action stage, and the whole state — in particular
`last_question` and `question_count` — is unchanged. -/
theorem process_question_dedup_noop (st : AgentState) (q : String)
    (options : List String) (positions : List (ℕ × ℕ))
    (so : Option (List SearchResult)) (hq : q ≠ "") (ho : options ≠ [])
    (hdup : q = st.last_question) :
    process_question st (some q) options positions so = ⟨true, st, false, false⟩ := by
  rw [process_question, if_neg (by simp [hq, ho]), if_pos hdup]

/-- Witness for C4's amended theorem at a concrete repeated question. -/
theorem process_question_dedup_noop_witness :
    process_question ⟨false, 3 / 10, "abc?", 2⟩ (some "abc?") ["Paris"] [] none =
      ⟨true, ⟨false, 3 / 10, "abc?", 2⟩, false, false⟩ :=
  process_question_dedup_noop ⟨false, 3 / 10, "abc?", 2⟩ "abc?" ["Paris"] [] none
    (by decide) (by decide) rfl

/-! ## Claim C6 -/

/-- C6: `extract_potential_answers` returns the all-zero map over the
given options when the snippet list or the option list is empty, and
whenever every raw score is zero, every normalized score is zero. -/
theorem extract_degenerate_all_zero (results : List SearchResult)
    (options : List String) :
    ((results = [] ∨ options = []) →
      extract_potential_answers results options = initScores options) ∧
    ((∀ p ∈ rawScores results options, p.2 = 0) →
      ∀ p ∈ extract_potential_answers results options, p.2 = 0) := by
  constructor
  · intro hdeg
    simp only [extract_potential_answers, rawScores, if_pos hdeg]
  · intro hzero p hp
    by_cases hdeg : results = [] ∨ options = []
    · simp only [extract_potential_answers, if_pos hdeg] at hp
      exact hzero p hp
    · simp only [extract_potential_answers, if_neg hdeg] at hp
      push_neg at hdeg
      have hne : rawScores results options ≠ [] := by
        rw [rawScores_eq_map]
        simpa using dictKeys_ne_nil hdeg.2
      have hmax0 : maxValues (rawScores results options) = 0 := by
        obtain ⟨p', hp', hp2⟩ := List.mem_map.mp (maxValues_mem hne)
        rw [← hp2]
        exact hzero p' hp'
      rw [hmax0] at hp
      norm_num at hp
      exact hzero p hp

/-- Witness for C6: a no-snippet call returns the all-zero initial map,
and a call whose snippets match nothing yields all-zero normalized
scores. -/
theorem extract_degenerate_all_zero_witness :
    extract_potential_answers [] ["London", "Berlin"] = initScores ["London", "Berlin"] ∧
    ∀ p ∈ extract_potential_answers [⟨"t", "u", "zzz"⟩] ["abc"], p.2 = 0 :=
  ⟨(extract_degenerate_all_zero [] ["London", "Berlin"]).1 (Or.inl rfl),
   (extract_degenerate_all_zero [⟨"t", "u", "zzz"⟩] ["abc"]).2 (by decide)⟩

/-! ## Claim C7 -/

/-- C7 counterexample: with a recognizer that raises, `extract_question`
and `extract_answers` propagate the exception to their caller instead of
returning an empty result — there is no try/except at this boundary in
`ocr_extractor.py`. -/
theorem extract_ocr_error_cex :
    extract_question (fun _ : ℕ => (Except.error "recognizer failure" : Except String String))
        (some 0) = Except.error "recognizer failure" ∧
    extract_answers (fun _ : ℕ => (Except.error "recognizer failure" : Except String String))
        (some 0) = Except.error "recognizer failure" ∧
    (Except.error "recognizer failure" : Except String (Option String)) ≠ Except.ok none ∧
    (Except.error "recognizer failure" : Except String (List String)) ≠ Except.ok [] :=
  ⟨rfl, rfl, fun h => Except.noConfusion h, fun h => Except.noConfusion h⟩

/-- C7 (amended): `extract_question` and `extract_answers` return an
empty result (`None` / empty list) on null input; a recognizer exception
is propagated unchanged to the caller (where the orchestrator's
`process_question` catches it). -/
theorem extract_empty_on_null_and_error_propagation {Img Err : Type}
    (recognize : Img → Except Err String) :
    (extract_question recognize none = Except.ok none ∧
      extract_answers recognize none = Except.ok []) ∧
    (∀ img e, recognize img = Except.error e →
      extract_question recognize (some img) = Except.error e ∧
      extract_answers recognize (some img) = Except.error e) := by
  refine ⟨⟨rfl, rfl⟩, ?_⟩
  intro img e h
  constructor
  · simp only [extract_question, h]
  · simp only [extract_answers, h]

/-- Witness for C7's amended theorem at a concrete failing recognizer. -/
theorem extract_empty_on_null_and_error_propagation_witness :
    extract_question (fun _ : ℕ => (Except.error "boom" : Except String String)) (some 7) =
      Except.error "boom" ∧
    extract_answers (fun _ : ℕ => (Except.error "boom" : Except String String)) (some 7) =
      Except.error "boom" :=
  (extract_empty_on_null_and_error_propagation
    (fun _ : ℕ => (Except.error "boom" : Except String String))).2 7 "boom" rfl

/-! ## Claim C8 -/

/-- The accumulating loop over lines equals `filterMap cleanLine`. -/
theorem foldl_cleanLine_eq (lines : List String) :
    ∀ acc : List String,
      lines.foldl
        (fun acc line =>
          match cleanLine line with
          | some c => acc ++ [c]
          | none => acc) acc = acc ++ lines.filterMap cleanLine := by
  induction lines with
  | nil => intro acc; simp
  | cons line lines ih =>
    intro acc
    rw [List.foldl_cons, List.filterMap_cons]
    cases h : cleanLine line with
    | none => simp only [h, ih]
    | some c => simp only [h, ih (acc ++ [c]), List.append_assoc, List.singleton_append]

/-- C8 counterexample, two facets.  (a) On `"ab\ncd ef"` only one usable
line fragment remains, so by the claim the whitespace-token chunking
fallback (groups of 3 from the first 12 tokens) should produce
`["ab cd ef"]`; the code instead keeps `["cd ef"]`, because the fallback
additionally requires at least 4 whitespace tokens in the raw text.
(b) On `"A) ok\nB) pq"` the claim's order — strip enumerators, then
discard fragments of ≤ 2 characters — leaves no usable fragment and
predicts the chunked `["A) ok B)", "pq"]`; the code discards on the
pre-stripping length and returns `["ok", "pq"]`. -/
theorem parse_answer_options_fallback_cex :
    (parse_answer_options "ab\ncd ef" = ["cd ef"] ∧
      (lineFragments "ab\ncd ef").length < 2 ∧
      chunk3 (pySplitWS "ab\ncd ef") = ["ab cd ef"] ∧
      (["cd ef"] : List String) ≠ ["ab cd ef"]) ∧
    (parse_answer_options "A) ok\nB) pq" = ["ok", "pq"] ∧
      chunk3 (pySplitWS "A) ok\nB) pq") = ["A) ok B)", "pq"] ∧
      (["ok", "pq"] : List String) ≠ ["A) ok B)", "pq"]) := by
  refine ⟨⟨by decide, by decide, by decide, by decide⟩, by decide, by decide, by decide⟩

/-- C8 (amended): `parse_answer_options` splits on line breaks and cleans
each line (`cleanLine`: strip, discard if ≤ 2 characters, then strip a
leading enumerator, keep if non-empty); it falls back to chunking the
whitespace-tokenized raw text into groups of 3 words bounded to the first
12 tokens exactly when fewer than 2 usable fragments remain *and* the raw
text has at least 4 whitespace tokens; and it always returns at most 4
results. -/
theorem parse_answer_options_characterization (raw : String) :
    parse_answer_options raw =
      (if (lineFragments raw).length < 2 ∧ 4 ≤ (pySplitWS raw).length
        then chunk3 (pySplitWS raw)
        else lineFragments raw).take 4 ∧
    (parse_answer_options raw).length ≤ 4 := by
  have hchar : parse_answer_options raw =
      (if (lineFragments raw).length < 2 ∧ 4 ≤ (pySplitWS raw).length
        then chunk3 (pySplitWS raw)
        else lineFragments raw).take 4 := by
    by_cases hraw : raw = ""
    · subst hraw
      decide
    · simp only [parse_answer_options, if_neg hraw,
        foldl_cleanLine_eq (splitLines raw) [], List.nil_append, ge_iff_le]
      rw [show (splitLines raw).filterMap cleanLine = lineFragments raw from rfl]
      by_cases h1 : (lineFragments raw).length < 2
      · by_cases h2 : 4 ≤ (pySplitWS raw).length
        · rw [if_pos h1, if_pos h2, if_pos ⟨h1, h2⟩]
        · rw [if_pos h1, if_neg h2, if_neg (fun hc => h2 hc.2)]
      · rw [if_neg h1, if_neg (fun hc => h1 hc.1)]
  refine ⟨hchar, ?_⟩
  rw [hchar]
  exact List.length_take_le 4 _

/-! ## Claim C1 -/

/-- C1: for every snippet set and non-empty option list, if at least one
option receives a non-zero raw score, then after normalization the
maximum value of the returned score map is exactly 1 and every value lies
in `[0, 1]`. -/
theorem extract_scores_normalized_max_one (results : List SearchResult)
    (options : List String) (_ho : options ≠ [])
    (hnz : ∃ p ∈ rawScores results options, p.2 ≠ 0) :
    maxValues (extract_potential_answers results options) = 1 ∧
    ∀ p ∈ extract_potential_answers results options, 0 ≤ p.2 ∧ p.2 ≤ 1 := by
  have hdeg : ¬ (results = [] ∨ options = []) := by
    intro hdeg
    obtain ⟨p, hp, hp2⟩ := hnz
    apply hp2
    rw [rawScores_eq_map] at hp
    obtain ⟨k, _, hkp⟩ := List.mem_map.mp hp
    have h2 : p.2 = rawVal results options k := congrArg Prod.snd hkp.symm
    rw [h2]
    unfold rawVal
    rw [if_pos hdeg]
  have hpos : 0 < maxValues (rawScores results options) := by
    obtain ⟨p, hp, hp2⟩ := hnz
    have hnn : 0 ≤ p.2 := by
      rw [rawScores_eq_map] at hp
      obtain ⟨k, _, hkp⟩ := List.mem_map.mp hp
      have h2 : p.2 = rawVal results options k := congrArg Prod.snd hkp.symm
      rw [h2]
      exact rawVal_nonneg results options k
    have hmax := snd_le_maxValues hp
    rcases lt_or_eq_of_le hnn with h | h
    · exact lt_of_lt_of_le h hmax
    · exact absurd h.symm hp2
  constructor
  · have hne : rawScores results options ≠ [] := by
      rw [rawScores_eq_map]
      simpa using dictKeys_ne_nil (fun h => hdeg (Or.inr h))
    simp only [extract_potential_answers, if_neg hdeg, if_pos hpos]
    rw [maxValues_map_div hpos hne, div_self (ne_of_gt hpos)]
  · intro p hp
    rw [extract_eq_map] at hp
    obtain ⟨k, hk, hkp⟩ := List.mem_map.mp hp
    have h2 : p.2 = normVal results options k := congrArg Prod.snd hkp.symm
    rw [h2]
    exact normVal_bounds results options hk

/-- Witness for C1: a snippet containing "the answer is paris" gives
Paris a non-zero raw score; the normalized map has maximum exactly 1 and
all values in `[0, 1]`. -/
theorem extract_scores_normalized_max_one_witness :
    maxValues
        (extract_potential_answers [⟨"", "", "the answer is paris"⟩] ["London", "Paris"])
      = 1 ∧
    ∀ p ∈ extract_potential_answers [⟨"", "", "the answer is paris"⟩] ["London", "Paris"],
      0 ≤ p.2 ∧ p.2 ≤ 1 :=
  extract_scores_normalized_max_one [⟨"", "", "the answer is paris"⟩] ["London", "Paris"]
    (by decide) (by decide)

/-! ## Claim C10 -/

/-- C10: for every non-empty question and non-empty option list,
`find_best_answer` returns a member of the option list with a confidence
in `[0, 1]`; on the internal-failure fallback it returns the first option
with confidence 0.1. -/
theorem find_best_answer_mem_bounds (q : String) (options : List String)
    (so : Option (List SearchResult)) (hq : q ≠ "") (ho : options ≠ []) :
    (find_best_answer q options so).1 ∈ options ∧
    (0 ≤ (find_best_answer q options so).2 ∧ (find_best_answer q options so).2 ≤ 1) ∧
    (so = none → find_best_answer q options so = (options.headI, 1 / 10)) := by
  refine ⟨fba_mem q options so hq ho, fba_bounds q options so hq ho, ?_⟩
  rintro rfl
  unfold find_best_answer
  rw [if_neg (by simp [hq, ho])]

/-- Witness for C10 on the fallback path (failed search): the first
option is returned with confidence 0.1, which is in `[0, 1]`. -/
theorem find_best_answer_mem_bounds_witness :
    (find_best_answer "Q?" ["London", "Paris"] none).1 ∈ (["London", "Paris"] : List String) ∧
    0 ≤ (find_best_answer "Q?" ["London", "Paris"] none).2 ∧
    (find_best_answer "Q?" ["London", "Paris"] none).2 ≤ 1 ∧
    find_best_answer "Q?" ["London", "Paris"] none = ("London", 1 / 10) := by
  obtain ⟨h1, ⟨h2, h3⟩, h4⟩ :=
    find_best_answer_mem_bounds "Q?" ["London", "Paris"] none (by decide) (by decide)
  exact ⟨h1, h2, h3, h4 rfl⟩

/-! ## Claim C3 -/

/-- C3: in a cycle on a new question with non-empty options (each option
text non-empty, as the OCR parser guarantees), the action stage is
invoked if and only if auto-click is enabled, the computed confidence is
at least `min_confidence` (inclusive boundary), and the button-position
list is non-empty; in particular with auto-click on, `min_confidence`
0.5 and confidence 0.4 it is never invoked. -/
theorem process_question_click_gate (st : AgentState) (q : String)
    (options : List String) (positions : List (ℕ × ℕ))
    (so : Option (List SearchResult)) (hq : q ≠ "") (ho : options ≠ [])
    (hnew : q ≠ st.last_question) (hopts : ∀ o ∈ options, o ≠ "") :
    ((process_question st (some q) options positions so).clickAttempted = true ↔
      st.auto_click = true ∧
        st.min_confidence ≤ (find_best_answer q options so).2 ∧ positions ≠ []) ∧
    (st.min_confidence = 1 / 2 → (find_best_answer q options so).2 = 2 / 5 →
      (process_question st (some q) options positions so).clickAttempted = false) := by
  have hQO : ¬ (q = "" ∨ options = []) := by simp [hq, ho]
  have hbest := fba_ne_empty q options so hq ho hopts
  have hstep : (process_question st (some q) options positions so).clickAttempted = true ↔
      st.auto_click = true ∧
        st.min_confidence ≤ (find_best_answer q options so).2 ∧ positions ≠ [] := by
    by_cases hc : st.auto_click = true ∧
        (find_best_answer q options so).2 ≥ st.min_confidence ∧ positions ≠ []
    · simp only [process_question, if_neg hQO, if_neg hnew, if_neg hbest, if_pos hc]
      exact ⟨fun _ => ⟨hc.1, hc.2.1, hc.2.2⟩, fun _ => trivial⟩
    · simp only [process_question, if_neg hQO, if_neg hnew, if_neg hbest, if_neg hc]
      constructor
      · intro h
        simp at h
      · intro h
        exact absurd ⟨h.1, h.2.1, h.2.2⟩ hc
  refine ⟨hstep, ?_⟩
  intro hmin hconf
  have hnot : ¬ (st.auto_click = true ∧
      st.min_confidence ≤ (find_best_answer q options so).2 ∧ positions ≠ []) := by
    rintro ⟨-, hle, -⟩
    rw [hmin, hconf] at hle
    norm_num at hle
  cases hcl : (process_question st (some q) options positions so).clickAttempted
  · rfl
  · exact absurd (hstep.mp hcl) hnot

/-- Witness for C3: with auto-click on, threshold 0.5 and a snippet
pushing the confidence to 1, the action stage is invoked. -/
theorem process_question_click_gate_witness :
    (process_question ⟨true, 1 / 2, "", 0⟩ (some "Q?") ["London", "Paris"] [(1, 2)]
        (some [⟨"", "", "the answer is paris"⟩])).clickAttempted = true := by
  have h := (process_question_click_gate ⟨true, 1 / 2, "", 0⟩ "Q?" ["London", "Paris"]
    [(1, 2)] (some [⟨"", "", "the answer is paris"⟩])
    (by decide) (by decide) (by decide) (by decide)).1
  exact h.mpr ⟨rfl, by decide, by decide⟩

/-! ## Claim C9 -/

/-- C9: a cycle reports success only if a non-empty question and a
non-empty option list were obtained; conversely, with those obtained
(each option text non-empty, as the OCR parser guarantees), the cycle
reports success for every button-position list and search outcome — in
particular an empty position list or an all-zero score map never makes
the cycle fail. -/
theorem process_question_success_invariant (st : AgentState)
    (question : Option String) (options : List String)
    (positions : List (ℕ × ℕ)) (so : Option (List SearchResult)) :
    ((process_question st question options positions so).success = true →
      ∃ q, question = some q ∧ q ≠ "" ∧ options ≠ []) ∧
    (∀ q, question = some q → q ≠ "" → options ≠ [] → (∀ o ∈ options, o ≠ "") →
      (process_question st question options positions so).success = true) := by
  constructor
  · intro hsucc
    match question, hsucc with
    | none, hsucc => simp [process_question] at hsucc
    | some q, hsucc =>
      by_cases hqo : q = "" ∨ options = []
      · rw [process_question, if_pos hqo] at hsucc
        simp at hsucc
      · push_neg at hqo
        exact ⟨q, rfl, hqo.1, hqo.2⟩
  · intro q hq hqe ho hopts
    subst hq
    have hQO : ¬ (q = "" ∨ options = []) := by simp [hqe, ho]
    by_cases hdup : q = st.last_question
    · rw [process_question, if_neg hQO, if_pos hdup]
    · have hbest := fba_ne_empty q options so hqe ho hopts
      simp only [process_question, if_neg hQO, if_neg hdup, if_neg hbest]
      by_cases hc : st.auto_click = true ∧
          (find_best_answer q options so).2 ≥ st.min_confidence ∧ positions ≠ []
      · rw [if_pos hc]
      · rw [if_neg hc]

/-- Witness for C9: a new question with one option, no button positions
and a failed search still reports success. -/
theorem process_question_success_invariant_witness :
    (process_question ⟨false, 3 / 10, "", 0⟩ (some "Q?") ["London"] [] none).success
      = true :=
  (process_question_success_invariant ⟨false, 3 / 10, "", 0⟩ (some "Q?") ["London"] []
    none).2 "Q?" rfl (by decide) (by decide) (by decide)

/-! ## Claim C5 -/

/-- An element appearing in the middle of a nodup split is absent from
the left part. -/
theorem not_mem_left_of_nodup_split {a : String} {k1 k2 : List String}
    (h : (k1 ++ a :: k2).Nodup) : a ∉ k1 := by
  intro hmem
  rcases List.nodup_append.mp h with ⟨-, -, hdisj⟩
  exact hdisj hmem (List.mem_cons_self a k2)

/-- C5: for a non-empty question and non-empty option list (with a
successful search), `find_best_answer` returns the first option, in the
given option order, whose normalized score equals the maximum normalized
score: the options strictly before it all score strictly less, and no
option scores more. -/
theorem find_best_answer_first_max (q : String) (options : List String)
    (results : List SearchResult) (hq : q ≠ "") (ho : options ≠ []) :
    ∃ l1 l2,
      options = l1 ++ (find_best_answer q options (some results)).1 :: l2 ∧
      (∀ o ∈ l1,
        getScore (extract_potential_answers results options) o <
          getScore (extract_potential_answers results options)
            (find_best_answer q options (some results)).1) ∧
      (∀ o ∈ options,
        getScore (extract_potential_answers results options) o ≤
          getScore (extract_potential_answers results options)
            (find_best_answer q options (some results)).1) := by
  have hkeys : extract_potential_answers results options =
      (dictKeys options).map (fun k => (k, normVal results options k)) :=
    extract_eq_map results options
  have hne : extract_potential_answers results options ≠ [] := extract_ne_nil ho
  obtain ⟨r, s1, s2, hr, hsplit, hlt, hle⟩ := pyMaxBySnd_split hne
  have hfba : find_best_answer q options (some results) = r := by
    simp only [find_best_answer, if_neg (show ¬ (q = "" ∨ options = []) by simp [hq, ho])]
    rw [hr]
  obtain ⟨k1, w, k2, hkeq, hk1, hw, hk2⟩ :=
    map_split_transfer (fun k => (k, normVal results options k)) (dictKeys options) s1 r s2
      (by rw [← hkeys, hsplit])
  have hrw : r.1 = w := by rw [← hw]
  have hr2 : r.2 = normVal results options w := by rw [← hw]
  have hget : ∀ o ∈ options,
      getScore (extract_potential_answers results options) o = normVal results options o := by
    intro o hoo
    rw [hkeys]
    exact getScore_map (dictKeys options) o (mem_dictKeys.mpr hoo)
  have hamem : r.1 ∈ options := by
    rw [hrw]
    refine mem_dictKeys.mp ?_
    rw [hkeq]
    exact List.mem_append_right k1 (List.mem_cons_self w k2)
  obtain ⟨l1, l2, hosplit, hnotin⟩ := first_occ_split hamem
  rw [hfba]
  refine ⟨l1, l2, hosplit, ?_, ?_⟩
  · intro o hol1
    have hoopts : o ∈ options := by
      rw [hosplit]
      exact List.mem_append_left _ hol1
    rw [hget o hoopts, hget r.1 hamem, hrw, ← hr2]
    -- locate o's key strictly before w in the key list
    have hoorder : ∃ j1 j2, dictKeys options = j1 ++ r.1 :: j2 ∧ o ∈ j1 := by
      obtain ⟨j1, j2, hjs, hoj⟩ :=
        @dictKeysAux_order r.1 o l1 [] l2 (List.not_mem_nil r.1) hnotin hol1
      rw [← hosplit] at hjs
      refine ⟨j1, j2, hjs, ?_⟩
      rcases hoj with h | h
      · exact h
      · exact absurd h (List.not_mem_nil o)
    obtain ⟨j1, j2, hjs, hoj1⟩ := hoorder
    rw [hrw] at hjs
    have hnodup : (dictKeys options).Nodup := nodup_dictKeys options
    have hwk1 : w ∉ k1 := not_mem_left_of_nodup_split (hkeq ▸ hnodup)
    have hwj1 : w ∉ j1 := not_mem_left_of_nodup_split (hjs ▸ hnodup)
    obtain ⟨hj_eq, -⟩ := split_unique j1 k1 (by rw [← hjs, ← hkeq]) hwj1 hwk1
    have hos1 : (o, normVal results options o) ∈ s1 := by
      rw [← hk1, ← hj_eq]
      exact List.mem_map_of_mem _ hoj1
    have := hlt _ hos1
    simpa [hr2, hrw] using this
  · intro o hoo
    rw [hget o hoo, hget r.1 hamem, hrw]
    have hmem : (o, normVal results options o) ∈ extract_potential_answers results options := by
      rw [hkeys]
      exact List.mem_map_of_mem _ (mem_dictKeys.mpr hoo)
    rw [hsplit] at hmem
    rcases List.mem_append.mp hmem with h | h
    · have h2 := hlt _ h
      rw [hr2] at h2
      exact le_of_lt h2
    · rcases List.mem_cons.mp h with h | h
      · have h2 : normVal results options o = r.2 := congrArg Prod.snd h
        rw [hr2] at h2
        exact le_of_eq h2
      · have h2 := hle _ h
        rw [hr2] at h2
        exact h2

/-- Witness for C5 at a tie: both options score the same, and the first
one is selected (empty left part in the decomposition). -/
theorem find_best_answer_first_max_witness :
    ∃ l1 l2,
      (["abc", "xyz"] : List String) =
        l1 ++ (find_best_answer "Q?" ["abc", "xyz"] (some [⟨"", "", "abc xyz"⟩])).1 :: l2 ∧
      (∀ o ∈ l1,
        getScore (extract_potential_answers [⟨"", "", "abc xyz"⟩] ["abc", "xyz"]) o <
          getScore (extract_potential_answers [⟨"", "", "abc xyz"⟩] ["abc", "xyz"])
            (find_best_answer "Q?" ["abc", "xyz"] (some [⟨"", "", "abc xyz"⟩])).1) ∧
      (∀ o ∈ (["abc", "xyz"] : List String),
        getScore (extract_potential_answers [⟨"", "", "abc xyz"⟩] ["abc", "xyz"]) o ≤
          getScore (extract_potential_answers [⟨"", "", "abc xyz"⟩] ["abc", "xyz"])
            (find_best_answer "Q?" ["abc", "xyz"] (some [⟨"", "", "abc xyz"⟩])).1) :=
  find_best_answer_first_max "Q?" ["abc", "xyz"] [⟨"", "", "abc xyz"⟩]
    (by decide) (by decide)

end Kahoot
